import Mathlib

/-!
Verification of the MnConfigSharedBackend resolution engine (src/main.py).

The development shallowly embeds the pure core of the backend: JSON-like
values, the deep-merge, the registry lookup and validator, the scope
matcher, the specificity ranker, the latest-per-scope reduction, the
per-component resolution, the upsert (version assignment) and the
per-component delete.  Python dictionaries are embedded as
insertion-ordered association lists (which is exactly how CPython
dictionaries behave); Python `None` and JSON `null` are one and the same
value, embedded as `JValue.null`.
-/

namespace MnConfig

/-- JSON-like value tree, mirroring the untyped `Any` payloads of
`main.py` (`value` fields, registry defaults).  Objects are
insertion-ordered association lists, as CPython dicts are. -/
inductive JValue where
  | null
  | bool (b : Bool)
  | num (n : Int)
  | str (s : String)
  | arr (elems : List JValue)
  | obj (fields : List (String × JValue))
  deriving Repr

/-- First-occurrence association-list lookup; embeds Python `d.get(k)`
(`none` for a missing key). -/
def jLookup : List (String × JValue) → String → Option JValue
  | [], _ => none
  | (k, v) :: t, key => if k == key then some v else jLookup t key

mutual

/-- Embeds `deep_merge` (src/main.py:87-96).  `override is None` returns
`base`; two dicts merge per key (`out = dict(base)`, then
`out[k] = deep_merge(base.get(k), v)` for each override item, which keeps
base keys in place with merged values and appends override-only keys in
override order — for an override-only key `deep_merge(None, v) = v`);
every other pairing returns `override`. -/
def deep_merge : JValue → JValue → JValue
  | base, .null => base
  | .obj bf, .obj of =>
      .obj (mergeFields bf of ++ of.filter (fun kv => (jLookup bf kv.1).isNone))
  | _, override => override

/-- Per-base-key part of the dict/dict case of `deep_merge`: each base
entry keeps its position; a key also present in the override is bound to
the recursive merge, a key absent from the override keeps the base value. -/
def mergeFields : List (String × JValue) → List (String × JValue) → List (String × JValue)
  | [], _ => []
  | (k, v) :: rest, of =>
      (k, match jLookup of k with
          | some w => deep_merge v w
          | none => v) :: mergeFields rest of

end

mutual

/-- Python `==` on embedded JSON values: dict comparison ignores key
order (equal size and pointwise-equal values per key); lists compare
elementwise; scalars compare by value. -/
def pyEq : JValue → JValue → Bool
  | .null, .null => true
  | .bool a, .bool b => a == b
  | .num a, .num b => a == b
  | .str a, .str b => a == b
  | .arr xs, .arr ys => pyEqList xs ys
  | .obj fs, .obj gs => fs.length == gs.length && pyEqFields fs gs
  | _, _ => false

/-- Elementwise Python `==` on lists. -/
def pyEqList : List JValue → List JValue → Bool
  | [], [] => true
  | x :: xs, y :: ys => pyEq x y && pyEqList xs ys
  | _, _ => false

/-- Every key of the first dict must be present in the second with a
Python-equal value. -/
def pyEqFields : List (String × JValue) → List (String × JValue) → Bool
  | [], _ => true
  | (k, v) :: t, gs =>
      (match jLookup gs k with
       | some w => pyEq v w
       | none => false) && pyEqFields t gs

end

mutual

/-- Kind-compatibility of two JSON values: nowhere does one side hold a
mapping where the other holds a non-null non-mapping.  `null` is
compatible with everything (it is the right identity of `deep_merge` and
is absorbed on the left). -/
def compat : JValue → JValue → Bool
  | .null, _ => true
  | _, .null => true
  | .obj bf, .obj of => compatFields bf of
  | .obj _, _ => false
  | _, .obj _ => false
  | _, _ => true

/-- Kind-compatibility of two field lists at every shared key. -/
def compatFields : List (String × JValue) → List (String × JValue) → Bool
  | [], _ => true
  | (k, v) :: rest, of =>
      (match jLookup of k with
       | some w => compat v w
       | none => true) && compatFields rest of

end

/-- Suffix list of a character list: models the candidate runs a `*`
wildcard can consume (zero or more characters, `/` included). -/
def tailsOf : List Char → List (List Char)
  | [] => [[]]
  | c :: s => (c :: s) :: tailsOf s

/-- Modelled from the spec: the external `fnmatch.fnmatch` call of
`match_route` (src/main.py:131-133) is specified as POSIX
`fnmatch`-equivalent shell glob semantics where `*` matches any run of
characters including `/` and `?` matches a single character; character
classes (`[...]`) are not used by this backend's route patterns and are
not modelled. -/
def globCore : List Char → List Char → Bool
  | [], s => s.isEmpty
  | c :: ps, s =>
      if c = '*' then (tailsOf s).any (fun t => globCore ps t)
      else
        match s with
        | [] => false
        | c' :: s' => (if c = '?' then true else c == c') && globCore ps s'

/-- Embeds `match_route` (src/main.py:131-133): `fnmatch(route, pattern)`. -/
def match_route (pattern route : String) : Bool :=
  globCore pattern.data route.data

/-- Registry entry for one component: optional default value, optional
schema.  Modelled from the spec: the external JSON-Schema validator
(`jsonschema.Draft202012Validator`, not part of this repository) is
modelled as the deterministically ordered list of violation messages it
reports for a candidate value — `[]` meaning the value conforms. -/
structure RegEntry where
  default : Option JValue
  schema : Option (JValue → List String)

/-- Registry: componentKey to entry, as an insertion-ordered dict. -/
abbrev Registry := List (String × RegEntry)

/-- First-occurrence lookup in the registry (`_registry.get(key)`). -/
def regLookup : Registry → String → Option RegEntry
  | [], _ => none
  | (k, e) :: t, key => if k == key then some e else regLookup t key

/-- Embeds `default_for` (src/main.py:99-101): the deep-copied registered
default, or an empty mapping when the component or its default is absent
(`deepcopy` is the identity in a pure embedding). -/
def default_for (reg : Registry) (component_key : String) : JValue :=
  match regLookup reg component_key with
  | some entry =>
      match entry.default with
      | some d => d
      | none => .obj []
  | none => .obj []

/-- Embeds `validate_value` (src/main.py:104-113): no registry entry or
no schema means no validation; otherwise the sorted violation list is
returned when non-empty, `none` when the value conforms. -/
def validate_value (reg : Registry) (component_key : String) (value : JValue) :
    Option (List String) :=
  match regLookup reg component_key with
  | none => none
  | some entry =>
      match entry.schema with
      | none => none
      | some check =>
          match check value with
          | [] => none
          | e :: rest => some (e :: rest)

/-- Configuration document, mirroring the `ConfigDoc` dataclass
(src/main.py:36-46). -/
structure ConfigDoc where
  tenant : String
  env : String
  componentKey : String
  scopeType : String
  scopeKey : String
  version : Nat
  value : JValue
  createdAt : Nat
  createdBy : String
  deriving Repr

/-- Specificity score of `sort_scopes` (src/main.py:116-128): global is
`(0, 0)`, page is `(1, |scopeKey|)`, route is `(2, |scopeKey|)`, anything
else `(0, 0)`. -/
def score (d : ConfigDoc) : Nat × Nat :=
  if d.scopeType == "global" then (0, 0)
  else if d.scopeType == "page" then (1, d.scopeKey.length)
  else if d.scopeType == "route" then (2, d.scopeKey.length)
  else (0, 0)

/-- Strict lexicographic order on score pairs. -/
def scoreLt (a b : Nat × Nat) : Bool :=
  a.1 < b.1 || (a.1 == b.1 && a.2 < b.2)

/-- Stable insertion of a document into an already sorted list: the
document goes after every element whose score is less than or equal to
its own, which reproduces the stability of Python `sorted`. -/
def sinsert (d : ConfigDoc) : List ConfigDoc → List ConfigDoc
  | [] => [d]
  | x :: xs => if scoreLt (score d) (score x) then d :: x :: xs else x :: sinsert d xs

/-- Embeds `sort_scopes` (src/main.py:116-128): stable sort by `score`. -/
def sort_scopes (scopes : List ConfigDoc) : List ConfigDoc :=
  scopes.foldl (fun acc d => sinsert d acc) []

/-- Identity filter of `latest_versions_for` (src/main.py:138). -/
def identityMatch (tenant env component_key : String) (d : ConfigDoc) : Bool :=
  d.tenant == tenant && d.env == env && d.componentKey == component_key

/-- One step of the latest-per-scope dict: a first occurrence of a
`(scopeType, scopeKey)` key is appended; a later document replaces the
kept one only when its version is strictly greater
(`d.version > prev.version`, src/main.py:144). -/
def updLatest (acc : List ((String × String) × ConfigDoc)) (d : ConfigDoc) :
    List ((String × String) × ConfigDoc) :=
  match lookupPair acc (d.scopeType, d.scopeKey) with
  | none => acc ++ [((d.scopeType, d.scopeKey), d)]
  | some prev => if prev.version < d.version then setPair acc (d.scopeType, d.scopeKey) d else acc
where
  /-- First-occurrence lookup in the scope-keyed accumulator. -/
  lookupPair : List ((String × String) × ConfigDoc) → (String × String) → Option ConfigDoc
    | [], _ => none
    | (k, v) :: t, key => if k == key then some v else lookupPair t key
  /-- In-place value replacement at an existing key, keeping its position
  (CPython dict assignment semantics). -/
  setPair : List ((String × String) × ConfigDoc) → (String × String) → ConfigDoc →
      List ((String × String) × ConfigDoc)
    | [], key, d => [(key, d)]
    | (k, v) :: t, key, d => if k == key then (k, d) :: t else (k, v) :: setPair t key d

/-- Embeds `latest_versions_for` (src/main.py:136-146): filter the store
by the identity triple, keep the latest document per `(scopeType,
scopeKey)` in an insertion-ordered dict, return its values. -/
def latest_versions_for (store : List ConfigDoc) (identity : String × String × String) :
    List ConfigDoc :=
  ((store.filter (identityMatch identity.1 identity.2.1 identity.2.2)).foldl updLatest []).map
    (fun p => p.2)

/-- Python truthiness of the optional route/page query parameters: absent
(`None`) and the empty string are both falsy. -/
def optTruthy : Option String → Bool
  | none => false
  | some s => !(s == "")

/-- The `globals_` subset (src/main.py:153). -/
def globals_of (docs : List ConfigDoc) : List ConfigDoc :=
  docs.filter (fun d => d.scopeType == "global")

/-- The `pages_` subset (src/main.py:154): `d.scopeType == 'page' and
page and d.scopeKey == page`. -/
def pages_of (docs : List ConfigDoc) (page : Option String) : List ConfigDoc :=
  docs.filter (fun d => d.scopeType == "page" && optTruthy page && d.scopeKey == page.getD "")

/-- The `routes_` subset (src/main.py:155): `d.scopeType == 'route' and
route and match_route(d.scopeKey, route)`. -/
def routes_of (docs : List ConfigDoc) (route : Option String) : List ConfigDoc :=
  docs.filter (fun d =>
    d.scopeType == "route" && optTruthy route && match_route d.scopeKey (route.getD ""))

/-- One of the three merge loops of `effective_for_component`
(src/main.py:157-162): sort the subset by specificity, then deep-merge
each document's value into the accumulator. -/
def merge_docs (acc : JValue) (scopes : List ConfigDoc) : JValue :=
  (sort_scopes scopes).foldl (fun a d => deep_merge a d.value) acc

/-- Embeds `effective_for_component` (src/main.py:149-164): start from
the registry default, reduce the store to latest-per-scope, then merge
the global, page and route subsets in that fixed order. -/
def effective_for_component (reg : Registry) (store : List ConfigDoc)
    (tenant env component_key : String) (route page : Option String) : JValue :=
  let docs := latest_versions_for store (tenant, env, component_key)
  merge_docs (merge_docs (merge_docs (default_for reg component_key) (globals_of docs))
    (pages_of docs page)) (routes_of docs route)

/-- Identity-and-scope filter of the version computation in
`upsert_component` (src/main.py:240). -/
def idScopeMatch (tenant env component_key scope_type scope_key : String) (d : ConfigDoc) :
    Bool :=
  d.tenant == tenant && d.env == env && d.componentKey == component_key &&
    d.scopeType == scope_type && d.scopeKey == scope_key

/-- Python `max(versions, default=0)` over the versions of a document
list. -/
def versionsMax (l : List ConfigDoc) : Nat :=
  (l.map (fun d => d.version)).foldr Nat.max 0

/-- Embeds the core of `upsert_component` (src/main.py:233-258): validate
first and raise `ValidationError` with the full violation list before any
mutation; otherwise append one document carrying
`max(existing versions, default 0) + 1` and return that version.  The
returned list is the post-call store. -/
def upsert_component (reg : Registry) (store : List ConfigDoc)
    (component_key tenant env scope_type scope_key : String) (value : JValue)
    (now : Nat) (created_by : String) : List ConfigDoc × Except (List String) Nat :=
  match validate_value reg component_key value with
  | some errors => (store, .error errors)
  | none =>
      let next_version :=
        versionsMax (store.filter (idScopeMatch tenant env component_key scope_type scope_key)) + 1
      (store ++
        [⟨tenant, env, component_key, scope_type, scope_key, next_version, value, now, created_by⟩],
        .ok next_version)

/-- Embeds `delete_component` (src/main.py:270-280): keep every document
that does not match the `(tenant, env, componentKey)` triple. -/
def delete_component (store : List ConfigDoc) (component_key tenant env : String) :
    List ConfigDoc :=
  store.filter (fun d => !(d.tenant == tenant && d.env == env && d.componentKey == component_key))

/-- Sequential upsert calls for one identity and scope: threads the store
and collects the versions of the successful calls. -/
def runUpserts (reg : Registry) (component_key tenant env scope_type scope_key : String) :
    List ConfigDoc → List (JValue × Nat × String) → List ConfigDoc × List Nat
  | store, [] => (store, [])
  | store, (v, now, who) :: rest =>
      match upsert_component reg store component_key tenant env scope_type scope_key v now who with
      | (store2, .ok ver) =>
          ((runUpserts reg component_key tenant env scope_type scope_key store2 rest).1,
           ver :: (runUpserts reg component_key tenant env scope_type scope_key store2 rest).2)
      | (store2, .error _) =>
          runUpserts reg component_key tenant env scope_type scope_key store2 rest

/-- Whether a JSON value is a mapping. -/
def isObj : JValue → Bool
  | .obj _ => true
  | _ => false

/-- Key lookup on a JSON value when it is a mapping, `none` otherwise. -/
def objGet : JValue → String → Option JValue
  | .obj fs, k => jLookup fs k
  | _, _ => none

/-- Merge of a base value with an optional override sub-value, as a
base-keyed entry of the dict/dict case sees it. -/
def mergeEntry (v : JValue) : Option JValue → JValue
  | some w => deep_merge v w
  | none => v

/-- Running latest-document pick over a scan-ordered group: a document
replaces the kept one only when its version is strictly greater.  This is
the per-key trace of the `latest` dict of `latest_versions_for`. -/
def optPick : Option ConfigDoc → List ConfigDoc → Option ConfigDoc
  | o, [] => o
  | o, d :: l =>
      optPick
        (match o with
         | none => some d
         | some p => if p.version < d.version then some d else some p) l

/-- Consecutive naturals `start, start+1, …` of the given length. -/
def seqFrom (start : Nat) : Nat → List Nat
  | 0 => []
  | n + 1 => start :: seqFrom (start + 1) n

/-- Global fixture document of the specificity-precedence scenario:
value `{a: 1, b: 1}`. -/
def c1g (t e : String) : ConfigDoc :=
  ⟨t, e, "cmp", "global", "*", 1, .obj [("a", .num 1), ("b", .num 1)], 0, "dev"⟩

/-- Page fixture document (scopeKey `home`): value `{b: 2}`. -/
def c1p (t e : String) : ConfigDoc :=
  ⟨t, e, "cmp", "page", "home", 1, .obj [("b", .num 2)], 0, "dev"⟩

/-- Route fixture document (pattern `/shop/*`): value `{b: 3, c: 1}`. -/
def c1r (t e : String) : ConfigDoc :=
  ⟨t, e, "cmp", "route", "/shop/*", 1, .obj [("b", .num 3), ("c", .num 1)], 0, "dev"⟩

/-- Store holding exactly the three fixture documents. -/
def c1store (t e : String) : List ConfigDoc :=
  [c1g t e, c1p t e, c1r t e]

/-- First-scanned member of a version tie within one scope group. -/
def tieFirst : ConfigDoc :=
  ⟨"t", "e", "cmp", "global", "*", 1, .obj [("x", .num 1)], 0, "first"⟩

/-- Second-scanned member of the same version tie. -/
def tieSecond : ConfigDoc :=
  ⟨"t", "e", "cmp", "global", "*", 1, .obj [("x", .num 2)], 1, "second"⟩

/-- Fixture registry whose single component `cfg` carries a schema
requiring the key `x` (modelled, per the spec, as the ordered violation
list the validator reports). -/
def regFix : Registry :=
  [("cfg", ⟨none, some (fun v =>
    match objGet v "x" with
    | some _ => []
    | none => ["x is required"])⟩)]

/-! General lemmas about the embedded operations. -/

theorem jLookup_append (l1 l2 : List (String × JValue)) (k : String) :
    jLookup (l1 ++ l2) k =
      match jLookup l1 k with
      | some v => some v
      | none => jLookup l2 k := by
  induction l1 with
  | nil => rfl
  | cons p t ih =>
      obtain ⟨k0, v0⟩ := p
      by_cases h : k0 == k <;> simp [jLookup, h, ih]

theorem jLookup_mergeFields (bf of : List (String × JValue)) (k : String) :
    jLookup (mergeFields bf of) k =
      match jLookup bf k with
      | some v => some (mergeEntry v (jLookup of k))
      | none => none := by
  induction bf with
  | nil => rfl
  | cons p t ih =>
      obtain ⟨k0, v0⟩ := p
      by_cases h : k0 == k
      · have hk : k0 = k := by simpa using h
        subst hk
        cases hof : jLookup of k0 <;> simp [mergeFields, jLookup, hof, mergeEntry]
      · simp [mergeFields, jLookup, h, ih]

theorem jLookup_filter_key (l : List (String × JValue)) (p : String → Bool) (k : String) :
    jLookup (l.filter (fun kv => p kv.1)) k =
      if p k then jLookup l k else none := by
  induction l with
  | nil => simp [jLookup]
  | cons q t ih =>
      obtain ⟨k0, v0⟩ := q
      by_cases hp : p k0
      · by_cases h : k0 == k
        · have : k0 = k := by simpa using h
          subst this
          simp [jLookup, hp, h]
        · simp [jLookup, hp, h, ih]
      · by_cases h : k0 == k
        · have : k0 = k := by simpa using h
          subst this
          simp [jLookup, hp, h, ih]
        · simp [jLookup, hp, h, ih]

theorem deep_merge_null_right (b : JValue) : deep_merge b .null = b := by
  cases b <;> rfl

/-- Evaluation of the dict/dict case of `deep_merge`. -/
theorem deep_merge_obj_obj (bf of : List (String × JValue)) :
    deep_merge (.obj bf) (.obj of) =
      .obj (mergeFields bf of ++ of.filter (fun kv => (jLookup bf kv.1).isNone)) := rfl

theorem deep_merge_null_left (o : JValue) (h : o ≠ .null) : deep_merge .null o = o := by
  cases o with
  | null => exact absurd rfl h
  | _ => rfl

theorem deep_merge_ne_null (b o : JValue) (h : o ≠ .null) : deep_merge b o ≠ .null := by
  cases o with
  | null => exact absurd rfl h
  | obj of => cases b <;> simp [deep_merge]
  | bool x => cases b <;> simp [deep_merge]
  | num x => cases b <;> simp [deep_merge]
  | str x => cases b <;> simp [deep_merge]
  | arr x => cases b <;> simp [deep_merge]

theorem deep_merge_replace (b o : JValue) (hn : o ≠ .null) (ho : (isObj b && isObj o) = false) :
    deep_merge b o = o := by
  cases o with
  | null => exact absurd rfl hn
  | obj of =>
      cases b with
      | obj bf => simp [isObj] at ho
      | _ => rfl
  | _ => cases b <;> rfl

theorem nil_mem_tailsOf (s : List Char) : [] ∈ tailsOf s := by
  induction s with
  | nil => simp [tailsOf]
  | cons c s ih => simp [tailsOf, ih]

/-- Star wildcard at the end of a pattern accepts every remaining run of
characters. -/
theorem globCore_star (s : List Char) : globCore ['*'] s = true := by
  simp [globCore]
  exact nil_mem_tailsOf s

/-- C8: route matching is shell-glob matching where `*` crosses `/`:
`/products/*` matches `/products/shoes` and `/products/shoes/42` (and in
fact `/products/` followed by any run of characters), but not
`/product/shoes`. -/
theorem route_glob_semantics :
    match_route "/products/*" "/products/shoes" = true
    ∧ match_route "/products/*" "/products/shoes/42" = true
    ∧ match_route "/products/*" "/product/shoes" = false
    ∧ ∀ rest : List Char, globCore "/products/*".data ("/products/".data ++ rest) = true := by
  refine ⟨by decide, by decide, by decide, ?_⟩
  intro rest
  have hp : "/products/*".data = ['/', 'p', 'r', 'o', 'd', 'u', 'c', 't', 's', '/', '*'] := rfl
  have hq : "/products/".data = ['/', 'p', 'r', 'o', 'd', 'u', 'c', 't', 's', '/'] := rfl
  rw [hp, hq]
  simp [globCore]
  exact nil_mem_tailsOf rest

/-- C9: the per-component delete keeps exactly the documents whose
identity triple differs, preserving them in order as a sublist of the
original store. -/
theorem delete_component_isolation (store : List ConfigDoc) (k t e : String) :
    (∀ d : ConfigDoc,
        d ∈ delete_component store k t e ↔
          d ∈ store ∧ ¬(d.tenant = t ∧ d.env = e ∧ d.componentKey = k))
    ∧ (delete_component store k t e).Sublist store := by
  constructor
  · intro d
    simp only [delete_component, List.mem_filter, Bool.not_eq_true', Bool.and_eq_true,
      beq_iff_eq, Bool.not_eq_true, Bool.and_eq_false_iff, beq_eq_false_iff_ne, ne_eq]
    constructor
    · rintro ⟨hm, hc⟩
      refine ⟨hm, ?_⟩
      rintro ⟨h1, h2, h3⟩
      rcases hc with (h | h) | h <;> [exact h h1; exact h h2; exact h h3]
    · rintro ⟨hm, hc⟩
      refine ⟨hm, ?_⟩
      by_cases h1 : d.tenant = t
      · by_cases h2 : d.env = e
        · exact Or.inr (fun h3 => hc ⟨h1, h2, h3⟩)
        · exact Or.inl (Or.inr h2)
      · exact Or.inl (Or.inl h1)
  · exact List.filter_sublist store

/-- C10: an empty-string page or route context is falsy in the Python
subset filters, so it selects no page/route documents — resolution with
`""` equals resolution with the parameter absent. -/
theorem empty_context_is_absent (reg : Registry) (store : List ConfigDoc)
    (tenant env component_key : String) :
    (∀ route : Option String,
        effective_for_component reg store tenant env component_key route (some "") =
          effective_for_component reg store tenant env component_key route none)
    ∧ ∀ page : Option String,
        effective_for_component reg store tenant env component_key (some "") page =
          effective_for_component reg store tenant env component_key none page := by
  constructor
  · intro route
    simp [effective_for_component, pages_of, optTruthy]
  · intro page
    simp [effective_for_component, routes_of, optTruthy]

/-- C2: the deep merge returns `base` under a null override; merges two
mappings key-by-key (union key set, recursive merge when both sides bind
a key, the surviving side's value otherwise); and in every other pairing
returns exactly the override. -/
theorem deep_merge_characterisation :
    (∀ base : JValue, deep_merge base .null = base)
    ∧ (∀ bf of : List (String × JValue),
        isObj (deep_merge (.obj bf) (.obj of)) = true
        ∧ ∀ k : String,
            objGet (deep_merge (.obj bf) (.obj of)) k =
              match jLookup bf k, jLookup of k with
              | some v, some w => some (deep_merge v w)
              | some v, none => some v
              | none, some w => some w
              | none, none => none)
    ∧ ∀ base override : JValue,
        override ≠ .null → (isObj base && isObj override) = false →
        deep_merge base override = override := by
  refine ⟨deep_merge_null_right, ?_, deep_merge_replace⟩
  intro bf of
  refine ⟨rfl, ?_⟩
  intro k
  rw [deep_merge_obj_obj]
  show jLookup (mergeFields bf of ++ of.filter fun kv => (jLookup bf kv.1).isNone) k = _
  rw [jLookup_append, jLookup_mergeFields, jLookup_filter_key of (fun x => (jLookup bf x).isNone) k]
  cases hb : jLookup bf k <;> cases ho : jLookup of k <;> simp [mergeEntry, hb, ho]

/-- Witness for C2 at concrete inputs: both the mapping/mapping case and
the replace case evaluate as characterised. -/
theorem deep_merge_characterisation_witness :
    (JValue.num 2 ≠ JValue.null)
    ∧ deep_merge (.num 1) (.num 2) = .num 2
    ∧ objGet (deep_merge (.obj [("a", .num 1)]) (.obj [("b", .num 2)])) "b" = some (.num 2) :=
  ⟨fun h => JValue.noConfusion h,
   deep_merge_characterisation.2.2 (.num 1) (.num 2) (fun h => JValue.noConfusion h) rfl,
   ((deep_merge_characterisation.2.1 [("a", .num 1)] [("b", .num 2)]).2 "b").trans rfl⟩

/-- C7: with zero stored documents for the identity, resolution returns
the registered default when one exists, and the empty mapping when the
component has no registry entry. -/
theorem resolve_default_baseline :
    (∀ (reg : Registry) (store : List ConfigDoc) (t e k : String) (route page : Option String)
        (entry : RegEntry) (D : JValue),
      regLookup reg k = some entry → entry.default = some D →
      store.filter (identityMatch t e k) = [] →
      effective_for_component reg store t e k route page = D)
    ∧ ∀ (reg : Registry) (store : List ConfigDoc) (t e k : String) (route page : Option String),
      regLookup reg k = none →
      store.filter (identityMatch t e k) = [] →
      effective_for_component reg store t e k route page = .obj [] := by
  constructor
  · intro reg store t e k route page entry D hreg hdef hfilt
    simp [effective_for_component, latest_versions_for, hfilt, globals_of, pages_of, routes_of,
      merge_docs, sort_scopes, default_for, hreg, hdef]
  · intro reg store t e k route page hreg hfilt
    simp [effective_for_component, latest_versions_for, hfilt, globals_of, pages_of, routes_of,
      merge_docs, sort_scopes, default_for, hreg]

/-- Witness for C7: a registered default is returned verbatim; an
unknown component resolves to the empty mapping. -/
theorem resolve_default_baseline_witness :
    effective_for_component [("k", ⟨some (.num 7), none⟩)] [] "t" "e" "k" none none = .num 7
    ∧ effective_for_component [] [] "t" "e" "k" none none = .obj [] :=
  ⟨resolve_default_baseline.1 [("k", ⟨some (.num 7), none⟩)] [] "t" "e" "k" none none
      ⟨some (.num 7), none⟩ (.num 7) rfl rfl rfl,
   resolve_default_baseline.2 [] [] "t" "e" "k" none none rfl rfl⟩

theorem upsert_component_error (reg : Registry) (store : List ConfigDoc)
    (k t e st sk : String) (v : JValue) (now : Nat) (who : String) (errs : List String)
    (hv : validate_value reg k v = some errs) :
    upsert_component reg store k t e st sk v now who = (store, .error errs) := by
  simp [upsert_component, hv]

theorem upsert_component_ok (reg : Registry) (store : List ConfigDoc)
    (k t e st sk : String) (v : JValue) (now : Nat) (who : String)
    (hv : validate_value reg k v = none) :
    upsert_component reg store k t e st sk v now who =
      (store ++
        [⟨t, e, k, st, sk, versionsMax (store.filter (idScopeMatch t e k st sk)) + 1,
          v, now, who⟩],
       .ok (versionsMax (store.filter (idScopeMatch t e k st sk)) + 1)) := by
  simp [upsert_component, hv]

/-- C5: a failing validation makes the upsert signal the full violation
list and leave the store untouched; a passing validation (in particular a
component without a schema, or absent from the registry) appends exactly
one document. -/
theorem upsert_atomic :
    (∀ (reg : Registry) (store : List ConfigDoc) (k t e st sk : String) (v : JValue)
        (now : Nat) (who : String) (errs : List String),
      validate_value reg k v = some errs →
      upsert_component reg store k t e st sk v now who = (store, .error errs))
    ∧ (∀ (reg : Registry) (store : List ConfigDoc) (k t e st sk : String) (v : JValue)
        (now : Nat) (who : String),
      validate_value reg k v = none →
      upsert_component reg store k t e st sk v now who =
        (store ++
          [⟨t, e, k, st, sk, versionsMax (store.filter (idScopeMatch t e k st sk)) + 1,
            v, now, who⟩],
         .ok (versionsMax (store.filter (idScopeMatch t e k st sk)) + 1)))
    ∧ (∀ (reg : Registry) (k : String) (v : JValue) (entry : RegEntry),
        regLookup reg k = some entry → entry.schema = none → validate_value reg k v = none)
    ∧ ∀ (reg : Registry) (k : String) (v : JValue),
        regLookup reg k = none → validate_value reg k v = none := by
  refine ⟨?_, ?_, ?_, ?_⟩
  · exact upsert_component_error
  · exact upsert_component_ok
  · intro reg k v entry hreg hs
    simp [validate_value, hreg, hs]
  · intro reg k v hreg
    simp [validate_value, hreg]

/-- Witness for C5: the fixture schema rejects `{}` with its violation
list and no store change, while a schema-free registry accepts the same
value and appends one version-1 document. -/
theorem upsert_atomic_witness :
    upsert_component regFix [] "cfg" "t" "e" "global" "*" (.obj []) 0 "dev" =
      ([], .error ["x is required"])
    ∧ upsert_component [] [] "cfg" "t" "e" "global" "*" (.obj []) 0 "dev" =
        ([⟨"t", "e", "cfg", "global", "*", 1, .obj [], 0, "dev"⟩], .ok 1) :=
  ⟨upsert_atomic.1 regFix [] "cfg" "t" "e" "global" "*" (.obj []) 0 "dev" ["x is required"] rfl,
   upsert_atomic.2.1 [] [] "cfg" "t" "e" "global" "*" (.obj []) 0 "dev" rfl⟩

theorem versionsMax_append (l1 l2 : List ConfigDoc) :
    versionsMax (l1 ++ l2) = Nat.max (versionsMax l1) (versionsMax l2) := by
  induction l1 with
  | nil => simp [versionsMax]
  | cons d t ih =>
      have h1 : versionsMax (d :: (t ++ l2)) = Nat.max d.version (versionsMax (t ++ l2)) := rfl
      have h2 : versionsMax (d :: t) = Nat.max d.version (versionsMax t) := rfl
      simp only [List.cons_append, h1, h2, ih]
      exact (Nat.max_assoc d.version (versionsMax t) (versionsMax l2)).symm

theorem versionsMax_singleton (d : ConfigDoc) : versionsMax [d] = d.version := by
  simp [versionsMax]

theorem versionsMax_filter_snoc (store : List ConfigDoc) (t e k st sk : String)
    (d : ConfigDoc) (hd : idScopeMatch t e k st sk d = true) :
    versionsMax ((store ++ [d]).filter (idScopeMatch t e k st sk)) =
      Nat.max (versionsMax (store.filter (idScopeMatch t e k st sk))) d.version := by
  rw [List.filter_append, versionsMax_append]
  simp only [List.filter_cons, hd, if_true, List.filter_nil, versionsMax_singleton]

theorem idScopeMatch_mk (t e k st sk : String) (ver : Nat) (v : JValue) (now : Nat)
    (who : String) :
    idScopeMatch t e k st sk ⟨t, e, k, st, sk, ver, v, now, who⟩ = true := by
  simp [idScopeMatch]

theorem runUpserts_versions (reg : Registry) (k t e st sk : String) :
    ∀ (inputs : List (JValue × Nat × String)) (store : List ConfigDoc),
      (∀ x ∈ inputs, validate_value reg k x.1 = none) →
      (runUpserts reg k t e st sk store inputs).2 =
        seqFrom (versionsMax (store.filter (idScopeMatch t e k st sk)) + 1) inputs.length := by
  intro inputs
  induction inputs with
  | nil => intro store _; rfl
  | cons x rest ih =>
      intro store hv
      obtain ⟨v, now, who⟩ := x
      have hvx : validate_value reg k v = none := hv _ (List.mem_cons_self _ _)
      have hstep := upsert_component_ok reg store k t e st sk v now who hvx
      simp only [runUpserts, hstep]
      rw [ih _ (fun y hy => hv y (List.mem_cons_of_mem _ hy))]
      rw [versionsMax_filter_snoc store t e k st sk _
        (idScopeMatch_mk t e k st sk (versionsMax (store.filter (idScopeMatch t e k st sk)) + 1)
          v now who)]
      have hver : (⟨t, e, k, st, sk,
          versionsMax (store.filter (idScopeMatch t e k st sk)) + 1, v, now, who⟩ :
            ConfigDoc).version
          = versionsMax (store.filter (idScopeMatch t e k st sk)) + 1 := rfl
      rw [hver]
      have hm : (versionsMax (List.filter (idScopeMatch t e k st sk) store)).max
          (versionsMax (List.filter (idScopeMatch t e k st sk) store) + 1)
          = versionsMax (List.filter (idScopeMatch t e k st sk) store) + 1 :=
        Nat.max_eq_right (Nat.le_succ _)
      rw [hm]
      rfl

/-- C4: from a store holding no document for the identity and scope, N
sequential successful upserts return exactly the versions 1, 2, …, N in
order; each successful upsert assigns one plus the maximum stored version
for that identity and scope (zero when none exists). -/
theorem upsert_version_monotonic :
    (∀ (reg : Registry) (k t e st sk : String) (inputs : List (JValue × Nat × String))
        (store : List ConfigDoc),
      store.filter (idScopeMatch t e k st sk) = [] →
      (∀ x ∈ inputs, validate_value reg k x.1 = none) →
      (runUpserts reg k t e st sk store inputs).2 = seqFrom 1 inputs.length)
    ∧ ∀ (reg : Registry) (store : List ConfigDoc) (k t e st sk : String) (v : JValue)
        (now : Nat) (who : String),
      validate_value reg k v = none →
      (upsert_component reg store k t e st sk v now who).2 =
        .ok (versionsMax (store.filter (idScopeMatch t e k st sk)) + 1) := by
  constructor
  · intro reg k t e st sk inputs store h0 hv
    have := runUpserts_versions reg k t e st sk inputs store hv
    rw [h0] at this
    exact this
  · intro reg store k t e st sk v now who hv
    rw [upsert_component_ok reg store k t e st sk v now who hv]

/-- Witness for C4: two sequential upserts into an empty store return
versions `[1, 2]`. -/
theorem upsert_version_monotonic_witness :
    (runUpserts [] "cfg" "t" "e" "global" "*" [] [(.obj [], 0, "a"), (.null, 1, "b")]).2
      = [1, 2] :=
  upsert_version_monotonic.1 [] "cfg" "t" "e" "global" "*"
    [(.obj [], 0, "a"), (.null, 1, "b")] [] rfl (fun _ _ => rfl)

/-- C1: for every tenant/env, with one latest Global document `{a: 1,
b: 1}`, one latest Page document (`home`) `{b: 2}` and one latest Route
document (`/shop/*`) `{b: 3, c: 1}` and no registry default, resolution
with route `/shop/42` and page `home` yields `{a: 1, b: 3, c: 1}`, with
only page `home` yields `{a: 1, b: 2}`, and with neither yields `{a: 1,
b: 1}` — Global, then Page, then Route, later merges winning. -/
theorem specificity_precedence (t e : String) :
    effective_for_component [] (c1store t e) t e "cmp" (some "/shop/42") (some "home")
      = .obj [("a", .num 1), ("b", .num 3), ("c", .num 1)]
    ∧ effective_for_component [] (c1store t e) t e "cmp" none (some "home")
      = .obj [("a", .num 1), ("b", .num 2)]
    ∧ effective_for_component [] (c1store t e) t e "cmp" none none
      = .obj [("a", .num 1), ("b", .num 1)] := by
  have hroute : match_route "/shop/*" "/shop/42" = true := by decide
  refine ⟨?_, ?_, ?_⟩ <;>
    simp [effective_for_component, latest_versions_for, c1store, c1g, c1p, c1r, identityMatch,
      updLatest, updLatest.lookupPair, updLatest.setPair, globals_of, pages_of, routes_of,
      optTruthy, hroute, merge_docs, sort_scopes, sinsert, scoreLt, score,
      default_for, regLookup, deep_merge, mergeFields, jLookup, mergeEntry]

/-! Lemmas for the latest-per-scope reduction. -/

theorem lookupPair_eq_none (l : List ((String × String) × ConfigDoc)) (K : String × String) :
    updLatest.lookupPair l K = none ↔ K ∉ l.map Prod.fst := by
  induction l with
  | nil => simp [updLatest.lookupPair]
  | cons q t ih =>
      obtain ⟨k0, v0⟩ := q
      by_cases h : k0 == K
      · have hk : k0 = K := by simpa using h
        subst hk
        simp [updLatest.lookupPair, h]
      · have hk : ¬k0 = K := by simpa using h
        simp only [updLatest.lookupPair, h, Bool.false_eq_true, if_false, List.map_cons,
          List.mem_cons, not_or, ih]
        constructor
        · intro hn
          exact ⟨fun hc => hk hc.symm, hn⟩
        · intro hn
          exact hn.2

theorem lookupPair_setPair (K key : String × String) (d : ConfigDoc) :
    ∀ l : List ((String × String) × ConfigDoc),
      updLatest.lookupPair (updLatest.setPair l key d) K =
        if key == K then some d else updLatest.lookupPair l K := by
  intro l
  induction l with
  | nil =>
      by_cases h : key == K <;> simp [updLatest.setPair, updLatest.lookupPair, h]
  | cons q t ih =>
      obtain ⟨k0, v0⟩ := q
      by_cases h0 : k0 == key
      · have hk : k0 = key := by simpa using h0
        subst hk
        by_cases hK : k0 == K <;> simp [updLatest.setPair, updLatest.lookupPair, h0, hK]
      · have hk : ¬k0 = key := by simpa using h0
        by_cases hK : k0 == K
        · have hkK : k0 = K := by simpa using hK
          subst hkK
          have hkey : (key == k0) = false := by
            simp only [beq_eq_false_iff_ne, ne_eq]
            exact fun hc => hk hc.symm
          simp [updLatest.setPair, updLatest.lookupPair, h0, hK, hkey]
        · simp [updLatest.setPair, updLatest.lookupPair, h0, hK, ih]

theorem setPair_keys (key : String × String) (d : ConfigDoc) :
    ∀ (l : List ((String × String) × ConfigDoc)) (p : ConfigDoc),
      updLatest.lookupPair l key = some p →
      (updLatest.setPair l key d).map Prod.fst = l.map Prod.fst := by
  intro l
  induction l with
  | nil => intro p hp; exact absurd hp (by simp [updLatest.lookupPair])
  | cons q t ih =>
      intro p hp
      obtain ⟨k0, v0⟩ := q
      by_cases h0 : k0 == key
      · simp [updLatest.setPair, h0]
      · have hlook : updLatest.lookupPair t key = some p := by
          simpa [updLatest.lookupPair, h0] using hp
        simp [updLatest.setPair, h0, ih p hlook]

theorem setPair_mem (key : String × String) (d : ConfigDoc) :
    ∀ (l : List ((String × String) × ConfigDoc)) (q : (String × String) × ConfigDoc),
      q ∈ updLatest.setPair l key d → q ∈ l ∨ q = (key, d) := by
  intro l
  induction l with
  | nil => intro q hq; simp [updLatest.setPair] at hq; exact Or.inr hq
  | cons r t ih =>
      intro q hq
      obtain ⟨k0, v0⟩ := r
      by_cases h0 : k0 == key
      · have hk : k0 = key := by simpa using h0
        subst hk
        simp only [updLatest.setPair, beq_self_eq_true, if_true] at hq
        rcases List.mem_cons.mp hq with h | h
        · exact Or.inr (by rw [h])
        · exact Or.inl (List.mem_cons_of_mem _ h)
      · simp only [updLatest.setPair, h0, Bool.false_eq_true, if_false] at hq
        rcases List.mem_cons.mp hq with h | h
        · exact Or.inl (by rw [h]; exact List.mem_cons_self _ _)
        · rcases ih q h with h2 | h2
          · exact Or.inl (List.mem_cons_of_mem _ h2)
          · exact Or.inr h2

theorem lookupPair_snoc (l : List ((String × String) × ConfigDoc)) (key K : String × String)
    (d : ConfigDoc) :
    updLatest.lookupPair (l ++ [(key, d)]) K =
      match updLatest.lookupPair l K with
      | some v => some v
      | none => if key == K then some d else none := by
  induction l with
  | nil => simp [updLatest.lookupPair]
  | cons q t ih =>
      obtain ⟨k0, v0⟩ := q
      by_cases h0 : k0 == K <;> simp [updLatest.lookupPair, h0, ih]

theorem lookupPair_updLatest (acc : List ((String × String) × ConfigDoc)) (d : ConfigDoc)
    (K : String × String) :
    updLatest.lookupPair (updLatest acc d) K =
      if (d.scopeType, d.scopeKey) == K then
        match updLatest.lookupPair acc K with
        | none => some d
        | some p => if p.version < d.version then some d else some p
      else updLatest.lookupPair acc K := by
  by_cases hK : (d.scopeType, d.scopeKey) = K
  · subst hK
    simp only [beq_self_eq_true, if_true]
    cases h : updLatest.lookupPair acc (d.scopeType, d.scopeKey) with
    | none =>
        unfold updLatest
        rw [h, lookupPair_snoc, h]
        simp
    | some prev =>
        unfold updLatest
        rw [h]
        by_cases hv : prev.version < d.version
        · simp only [hv, if_true]
          rw [lookupPair_setPair]
          simp
        · simp only [hv, if_false]
          exact h
  · have hKb : ((d.scopeType, d.scopeKey) == K) = false := by
      simp only [beq_eq_false_iff_ne, ne_eq]
      exact hK
    simp only [hKb, Bool.false_eq_true, if_false]
    unfold updLatest
    cases h : updLatest.lookupPair acc (d.scopeType, d.scopeKey) with
    | none =>
        rw [lookupPair_snoc]
        cases hacc : updLatest.lookupPair acc K with
        | some v => rfl
        | none => simp [hKb]
    | some prev =>
        by_cases hv : prev.version < d.version
        · simp only [hv, if_true]
          rw [lookupPair_setPair]
          simp [hKb]
        · simp only [hv, if_false]

theorem lookupPair_foldl (K : String × String) :
    ∀ (cands : List ConfigDoc) (acc : List ((String × String) × ConfigDoc)),
      updLatest.lookupPair (cands.foldl updLatest acc) K =
        optPick (updLatest.lookupPair acc K)
          (cands.filter (fun d => (d.scopeType, d.scopeKey) == K)) := by
  intro cands
  induction cands with
  | nil => intro acc; rfl
  | cons d cands ih =>
      intro acc
      rw [List.foldl_cons, ih (updLatest acc d), lookupPair_updLatest]
      by_cases hK : ((d.scopeType, d.scopeKey) == K)
      · simp only [hK, if_true, List.filter_cons, optPick]
      · simp only [hK, Bool.false_eq_true, if_false, List.filter_cons]

theorem updLatest_inv (acc : List ((String × String) × ConfigDoc)) (d : ConfigDoc)
    (hinv : ∀ p ∈ acc, (p.2.scopeType, p.2.scopeKey) = p.1)
    (hnd : (acc.map Prod.fst).Nodup) :
    (∀ p ∈ updLatest acc d, (p.2.scopeType, p.2.scopeKey) = p.1)
    ∧ ((updLatest acc d).map Prod.fst).Nodup := by
  unfold updLatest
  cases h : updLatest.lookupPair acc (d.scopeType, d.scopeKey) with
  | none =>
      constructor
      · intro p hp
        rcases List.mem_append.mp hp with h1 | h2
        · exact hinv p h1
        · have : p = ((d.scopeType, d.scopeKey), d) := by simpa using h2
          rw [this]
      · rw [List.map_append]
        refine List.Nodup.append hnd (List.nodup_singleton _) ?_
        intro a ha hb
        have hb2 : a = (d.scopeType, d.scopeKey) := by simpa using hb
        subst hb2
        exact (lookupPair_eq_none acc (d.scopeType, d.scopeKey)).mp h ha
  | some prev =>
      by_cases hv : prev.version < d.version
      · simp only [hv, if_true]
        constructor
        · intro p hp
          rcases setPair_mem _ _ acc p hp with h1 | h1
          · exact hinv p h1
          · rw [h1]
        · rw [setPair_keys _ _ acc prev h]
          exact hnd
      · simp only [hv, if_false]
        exact ⟨hinv, hnd⟩

theorem foldl_updLatest_inv :
    ∀ (cands : List ConfigDoc) (acc : List ((String × String) × ConfigDoc)),
      (∀ p ∈ acc, (p.2.scopeType, p.2.scopeKey) = p.1) →
      ((acc.map Prod.fst).Nodup) →
      (∀ p ∈ cands.foldl updLatest acc, (p.2.scopeType, p.2.scopeKey) = p.1)
      ∧ ((cands.foldl updLatest acc).map Prod.fst).Nodup := by
  intro cands
  induction cands with
  | nil => intro acc h1 h2; exact ⟨h1, h2⟩
  | cons d cands ih =>
      intro acc h1 h2
      rw [List.foldl_cons]
      obtain ⟨h3, h4⟩ := updLatest_inv acc d h1 h2
      exact ih (updLatest acc d) h3 h4

theorem mapSnd_filter_eq_lookup (K : String × String) :
    ∀ acc : List ((String × String) × ConfigDoc),
      (∀ p ∈ acc, (p.2.scopeType, p.2.scopeKey) = p.1) →
      ((acc.map Prod.fst).Nodup) →
      (acc.map (fun p => p.2)).filter (fun d => (d.scopeType, d.scopeKey) == K)
        = Option.toList (updLatest.lookupPair acc K) := by
  intro acc
  induction acc with
  | nil => intro _ _; rfl
  | cons q t ih =>
      intro hinv hnd
      obtain ⟨k0, d0⟩ := q
      have hk0 : (d0.scopeType, d0.scopeKey) = k0 := hinv _ (List.mem_cons_self _ _)
      have hinvt : ∀ p ∈ t, (p.2.scopeType, p.2.scopeKey) = p.1 :=
        fun p hp => hinv p (List.mem_cons_of_mem _ hp)
      have hnd1 : (k0 :: t.map Prod.fst).Nodup := by
        simpa only [List.map_cons] using hnd
      have hnd2 := List.nodup_cons.mp hnd1
      by_cases hK : k0 = K
      · subst hK
        have hpred : ((d0.scopeType, d0.scopeKey) == k0) = true := by simp [hk0]
        have htail : (t.map (fun p => p.2)).filter
            (fun d => (d.scopeType, d.scopeKey) == k0) = [] := by
          refine List.filter_eq_nil_iff.mpr ?_
          intro d hd
          obtain ⟨p, hp, hpd⟩ := List.mem_map.mp hd
          rw [← hpd]
          simp only [hinvt p hp, beq_iff_eq, ne_eq]
          intro hc
          exact hnd2.1 (hc ▸ List.mem_map_of_mem Prod.fst hp)
        simp [List.filter_cons, hpred, updLatest.lookupPair, htail]
      · have hpred : ((d0.scopeType, d0.scopeKey) == K) = false := by
          simp only [hk0, beq_eq_false_iff_ne, ne_eq]
          exact hK
        have hkb : (k0 == K) = false := by
          simp only [beq_eq_false_iff_ne, ne_eq]
          exact hK
        simp [List.filter_cons, hpred, updLatest.lookupPair, hkb, ih hinvt hnd2.2]

theorem versionsMax_cons (d : ConfigDoc) (l : List ConfigDoc) :
    versionsMax (d :: l) = Nat.max d.version (versionsMax l) := rfl

theorem versionsMax_le_cons (d : ConfigDoc) (l : List ConfigDoc) :
    d.version ≤ versionsMax (d :: l) ∧ versionsMax l ≤ versionsMax (d :: l) := by
  rw [versionsMax_cons]
  exact ⟨Nat.le_max_left _ _, Nat.le_max_right _ _⟩

theorem optPick_eq_find :
    ∀ (l : List ConfigDoc) (o : Option ConfigDoc),
      optPick o l = (o.toList ++ l).find?
        (fun d => d.version == versionsMax (o.toList ++ l)) := by
  intro l
  induction l with
  | nil =>
      intro o
      cases o with
      | none => rfl
      | some p =>
          show some p = [p].find? (fun d => d.version == versionsMax [p])
          rw [versionsMax_singleton, List.find?_cons_of_pos [] (by simp)]
  | cons d l ih =>
      intro o
      cases o with
      | none => exact ih (some d)
      | some p =>
          by_cases hlt : p.version < d.version
          · have hstep : optPick (some p) (d :: l) = optPick (some d) l := by
              simp [optPick, hlt]
            rw [hstep, ih (some d)]
            have hmax : versionsMax (p :: d :: l) = versionsMax (d :: l) := by
              rw [versionsMax_cons p]
              refine Nat.max_eq_right ?_
              exact le_trans (Nat.le_of_lt hlt) (versionsMax_le_cons d l).1
            show (d :: l).find? (fun x => x.version == versionsMax (d :: l))
              = (p :: d :: l).find? (fun x => x.version == versionsMax (p :: d :: l))
            rw [show versionsMax (p :: d :: l) = versionsMax (d :: l) from hmax]
            have hp : ¬((fun x : ConfigDoc => x.version == versionsMax (d :: l)) p = true) := by
              simp only [beq_iff_eq]
              have h1 := (versionsMax_le_cons d l).1
              omega
            rw [List.find?_cons_of_neg (d :: l) hp]
          · have hstep : optPick (some p) (d :: l) = optPick (some p) l := by
              simp [optPick, hlt]
            rw [hstep, ih (some p)]
            have hle : d.version ≤ p.version := Nat.le_of_not_lt hlt
            have hmax : versionsMax (p :: d :: l) = versionsMax (p :: l) := by
              rw [versionsMax_cons p, versionsMax_cons d, versionsMax_cons p]
              refine Nat.le_antisymm ?_ ?_
              · refine Nat.max_le.mpr ⟨Nat.le_max_left _ _, Nat.max_le.mpr ⟨?_, ?_⟩⟩
                · exact le_trans hle (Nat.le_max_left _ _)
                · exact Nat.le_max_right _ _
              · refine Nat.max_le.mpr ⟨Nat.le_max_left _ _, ?_⟩
                exact le_trans (Nat.le_max_right d.version (versionsMax l))
                  (Nat.le_max_right p.version _)
            show (p :: l).find? (fun x => x.version == versionsMax (p :: l))
              = (p :: d :: l).find? (fun x => x.version == versionsMax (p :: d :: l))
            rw [show versionsMax (p :: d :: l) = versionsMax (p :: l) from hmax]
            by_cases hp : ((fun x : ConfigDoc => x.version == versionsMax (p :: l)) p = true)
            · rw [List.find?_cons_of_pos l hp, List.find?_cons_of_pos (d :: l) hp]
            · rw [List.find?_cons_of_neg l hp, List.find?_cons_of_neg (d :: l) hp]
              have hd : ¬((fun x : ConfigDoc => x.version == versionsMax (p :: l)) d = true) := by
                simp only [beq_iff_eq] at hp ⊢
                have h1 := (versionsMax_le_cons p l).1
                omega
              rw [List.find?_cons_of_neg l hd]

/-- C6 counterexample: two documents in the same scope group share the
maximum version; the reduction keeps the one observed first in scan
order, not the one observed last. -/
theorem latest_tie_keeps_first :
    (latest_versions_for [tieFirst, tieSecond] ("t", "e", "cmp")).map
        (fun d => d.createdBy) = ["first"]
    ∧ (latest_versions_for [tieFirst, tieSecond] ("t", "e", "cmp")).map
        (fun d => d.createdBy) ≠ ["second"] := by
  refine ⟨rfl, fun h => ?_⟩
  rw [show (latest_versions_for [tieFirst, tieSecond] ("t", "e", "cmp")).map
      (fun d => d.createdBy) = ["first"] from rfl] at h
  exact absurd h (by decide)

/-- C6 (amended): the latest-per-scope reduction groups the identity's
documents by `(scopeType, scopeKey)` and keeps, per non-empty group,
exactly the document bearing the group's maximum version — on a version
tie the one observed first in scan order wins. -/
theorem latest_per_scope_spec (store : List ConfigDoc) (t e k st sk : String) :
    (latest_versions_for store (t, e, k)).filter
        (fun d => (d.scopeType, d.scopeKey) == (st, sk))
      = Option.toList
          (((store.filter (identityMatch t e k)).filter
              (fun d => (d.scopeType, d.scopeKey) == (st, sk))).find?
            (fun d => d.version == versionsMax
              ((store.filter (identityMatch t e k)).filter
                (fun d => (d.scopeType, d.scopeKey) == (st, sk))))) := by
  unfold latest_versions_for
  have hinv := foldl_updLatest_inv (store.filter (identityMatch t e k)) []
    (by intro p hp; cases hp) (by simp)
  rw [mapSnd_filter_eq_lookup (st, sk) _ hinv.1 hinv.2]
  rw [lookupPair_foldl (st, sk)]
  have h0 : updLatest.lookupPair [] (st, sk) = none := rfl
  rw [h0, optPick_eq_find]
  rfl

/-! Lemmas for deep-merge associativity. -/

theorem jvalue_sizeOf_pos (v : JValue) : 0 < sizeOf v := by
  cases v <;> simp

theorem sizeOf_mem_fields {k : String} {v : JValue} :
    ∀ l : List (String × JValue), (k, v) ∈ l → sizeOf v < sizeOf l := by
  intro l
  induction l with
  | nil => intro h; cases h
  | cons q t ih =>
      intro h
      rcases List.mem_cons.mp h with h1 | h1
      · rw [← h1]
        simp
        omega
      · have := ih h1
        simp
        omega

theorem jLookup_mem {k : String} {v : JValue} :
    ∀ l : List (String × JValue), jLookup l k = some v → (k, v) ∈ l := by
  intro l
  induction l with
  | nil => intro h; cases h
  | cons q t ih =>
      intro h
      obtain ⟨k0, v0⟩ := q
      by_cases h0 : k0 == k
      · have hk : k0 = k := by simpa using h0
        subst hk
        have hv : v0 = v := by simpa [jLookup, h0] using h
        subst hv
        exact List.mem_cons_self _ _
      · have h2 : jLookup t k = some v := by simpa [jLookup, h0] using h
        exact List.mem_cons_of_mem _ (ih h2)

theorem sizeOf_jLookup {k : String} {v : JValue} (l : List (String × JValue))
    (h : jLookup l k = some v) : sizeOf v < sizeOf l :=
  sizeOf_mem_fields l (jLookup_mem l h)

theorem mergeFields_eq_map (bf of : List (String × JValue)) :
    mergeFields bf of = bf.map (fun kv => (kv.1, mergeEntry kv.2 (jLookup of kv.1))) := by
  induction bf with
  | nil => rfl
  | cons q t ih =>
      obtain ⟨k0, v0⟩ := q
      show (k0, _) :: mergeFields t of = _
      rw [List.map_cons, ih]
      cases h : jLookup of k0 <;> simp [mergeEntry, h]

theorem mergeFields_append (l1 l2 of : List (String × JValue)) :
    mergeFields (l1 ++ l2) of = mergeFields l1 of ++ mergeFields l2 of := by
  rw [mergeFields_eq_map, mergeFields_eq_map, mergeFields_eq_map, List.map_append]

theorem compatFields_lookup :
    ∀ (bf of : List (String × JValue)) (k : String) (v w : JValue),
      compatFields bf of = true → (k, v) ∈ bf → jLookup of k = some w → compat v w = true := by
  intro bf
  induction bf with
  | nil => intro of k v w _ hm _; cases hm
  | cons q t ih =>
      intro of k v w hc hm hl
      obtain ⟨k0, v0⟩ := q
      have hc2 : (match jLookup of k0 with
          | some w0 => compat v0 w0
          | none => true) = true ∧ compatFields t of = true := by
        simpa [compatFields, Bool.and_eq_true] using hc
      rcases List.mem_cons.mp hm with h1 | h1
      · have hk : k = k0 ∧ v = v0 := by simpa [Prod.ext_iff] using h1
        obtain ⟨hk1, hk2⟩ := hk
        subst hk1
        subst hk2
        have := hc2.1
        rw [hl] at this
        exact this
      · exact ih of k v w hc2.2 h1 hl

theorem compat_right_obj (a : JValue) (bf : List (String × JValue)) (ha : a ≠ .null)
    (h : compat a (.obj bf) = true) : ∃ af, a = .obj af := by
  cases a with
  | obj af => exact ⟨af, rfl⟩
  | null => exact absurd rfl ha
  | bool x => simp [compat] at h
  | num x => simp [compat] at h
  | str x => simp [compat] at h
  | arr x => simp [compat] at h

theorem compat_left_obj (bf : List (String × JValue)) (c : JValue) (hc : c ≠ .null)
    (h : compat (.obj bf) c = true) : ∃ cf, c = .obj cf := by
  cases c with
  | obj cf => exact ⟨cf, rfl⟩
  | null => exact absurd rfl hc
  | bool x => simp [compat] at h
  | num x => simp [compat] at h
  | str x => simp [compat] at h
  | arr x => simp [compat] at h

theorem compat_not_obj (b c : JValue) (hbn : b ≠ .null) (hbo : isObj b = false)
    (h : compat b c = true) (hcn : c ≠ .null) : isObj c = false := by
  cases c with
  | null => rfl
  | bool y => rfl
  | num y => rfl
  | str y => rfl
  | arr y => rfl
  | obj cf =>
      cases b with
      | null => exact absurd rfl hbn
      | obj bf => exact absurd hbo (by simp [isObj])
      | bool x => exact Bool.noConfusion h
      | num x => exact Bool.noConfusion h
      | str x => exact Bool.noConfusion h
      | arr x => exact Bool.noConfusion h

theorem lookup_merged_isNone (af bf : List (String × JValue)) (k : String) :
    (jLookup (mergeFields af bf ++ bf.filter (fun kv => (jLookup af kv.1).isNone)) k).isNone
      = ((jLookup af k).isNone && (jLookup bf k).isNone) := by
  rw [jLookup_append, jLookup_mergeFields,
    jLookup_filter_key bf (fun x => (jLookup af x).isNone) k]
  cases jLookup af k <;> cases jLookup bf k <;> simp

theorem jLookup_merged (bf cf : List (String × JValue)) (k : String) :
    jLookup (mergeFields bf cf ++ cf.filter (fun kv => (jLookup bf kv.1).isNone)) k
      = match jLookup bf k with
        | some w => some (mergeEntry w (jLookup cf k))
        | none => jLookup cf k := by
  rw [jLookup_append, jLookup_mergeFields,
    jLookup_filter_key cf (fun x => (jLookup bf x).isNone) k]
  cases jLookup bf k <;> simp

theorem deep_merge_assoc_aux :
    ∀ n : Nat, ∀ a b c : JValue, sizeOf a + sizeOf b + sizeOf c ≤ n →
      compat a b = true → compat b c = true → compat a c = true →
      deep_merge (deep_merge a b) c = deep_merge a (deep_merge b c) := by
  intro n
  induction n with
  | zero =>
      intro a b c hsz _ _ _
      have ha := jvalue_sizeOf_pos a
      have hb := jvalue_sizeOf_pos b
      have hc := jvalue_sizeOf_pos c
      omega
  | succ n ih =>
      intro a b c hsz hab hbc hac
      by_cases hc : c = .null
      · subst hc
        rw [deep_merge_null_right, deep_merge_null_right]
      by_cases hb : b = .null
      · subst hb
        rw [deep_merge_null_right, deep_merge_null_left c hc]
      by_cases ha : a = .null
      · subst ha
        rw [deep_merge_null_left b hb, deep_merge_null_left _ (deep_merge_ne_null b c hc)]
      cases b with
      | null => exact absurd rfl hb
      | bool x =>
          rw [deep_merge_replace a (.bool x) hb (by simp [isObj]),
            deep_merge_replace (.bool x) c hc
              (by simp [compat_not_obj (.bool x) c hb rfl hbc hc]),
            deep_merge_replace a c hc
              (by simp [compat_not_obj (.bool x) c hb rfl hbc hc])]
      | num x =>
          rw [deep_merge_replace a (.num x) hb (by simp [isObj]),
            deep_merge_replace (.num x) c hc
              (by simp [compat_not_obj (.num x) c hb rfl hbc hc]),
            deep_merge_replace a c hc
              (by simp [compat_not_obj (.num x) c hb rfl hbc hc])]
      | str x =>
          rw [deep_merge_replace a (.str x) hb (by simp [isObj]),
            deep_merge_replace (.str x) c hc
              (by simp [compat_not_obj (.str x) c hb rfl hbc hc]),
            deep_merge_replace a c hc
              (by simp [compat_not_obj (.str x) c hb rfl hbc hc])]
      | arr x =>
          rw [deep_merge_replace a (.arr x) hb (by simp [isObj]),
            deep_merge_replace (.arr x) c hc
              (by simp [compat_not_obj (.arr x) c hb rfl hbc hc]),
            deep_merge_replace a c hc
              (by simp [compat_not_obj (.arr x) c hb rfl hbc hc])]
      | obj bf =>
          obtain ⟨af, rfl⟩ := compat_right_obj a bf ha hab
          obtain ⟨cf, rfl⟩ := compat_left_obj bf c hc hbc
          have hab' : compatFields af bf = true := hab
          have hbc' : compatFields bf cf = true := hbc
          have hac' : compatFields af cf = true := hac
          have hsz2 : sizeOf af + sizeOf bf + sizeOf cf + 3 ≤ n + 1 := by
            have h1 : sizeOf (JValue.obj af) = 1 + sizeOf af := by simp
            have h2 : sizeOf (JValue.obj bf) = 1 + sizeOf bf := by simp
            have h3 : sizeOf (JValue.obj cf) = 1 + sizeOf cf := by simp
            omega
          rw [deep_merge_obj_obj af bf, deep_merge_obj_obj bf cf,
            deep_merge_obj_obj, deep_merge_obj_obj]
          refine congrArg JValue.obj ?_
          rw [mergeFields_append, List.filter_append]
          have P1 : mergeFields (mergeFields af bf) cf
              = mergeFields af
                  (mergeFields bf cf ++ cf.filter (fun kv => (jLookup bf kv.1).isNone)) := by
            rw [mergeFields_eq_map af bf, mergeFields_eq_map (af.map _) cf,
              mergeFields_eq_map af (mergeFields bf cf ++ _), List.map_map]
            refine List.map_congr_left ?_
            intro kv hkv
            obtain ⟨k, v⟩ := kv
            show (k, mergeEntry (mergeEntry v (jLookup bf k)) (jLookup cf k))
              = (k, mergeEntry v (jLookup
                  (mergeFields bf cf ++ cf.filter (fun kv => (jLookup bf kv.1).isNone)) k))
            refine congrArg (Prod.mk k) ?_
            rw [jLookup_merged bf cf k]
            cases hbk : jLookup bf k with
            | none => cases hck : jLookup cf k <;> simp [mergeEntry]
            | some w =>
                cases hck : jLookup cf k with
                | none => simp [mergeEntry]
                | some u =>
                    simp only [mergeEntry]
                    have s1 : sizeOf v < sizeOf af := sizeOf_mem_fields af hkv
                    have s2 : sizeOf w < sizeOf bf := sizeOf_jLookup bf hbk
                    have s3 : sizeOf u < sizeOf cf := sizeOf_jLookup cf hck
                    refine ih v w u (by omega) ?_ ?_ ?_
                    · exact compatFields_lookup af bf k v w hab' hkv hbk
                    · exact compatFields_lookup bf cf k w u hbc' (jLookup_mem bf hbk) hck
                    · exact compatFields_lookup af cf k v u hac' hkv hck
          have P2 : mergeFields (bf.filter (fun kv => (jLookup af kv.1).isNone)) cf
              = (mergeFields bf cf).filter (fun kv => (jLookup af kv.1).isNone) := by
            rw [mergeFields_eq_map bf cf, mergeFields_eq_map (bf.filter _) cf, List.filter_map]
            rfl
          have P3 : cf.filter (fun kv =>
                (jLookup (mergeFields af bf
                  ++ bf.filter (fun kv => (jLookup af kv.1).isNone)) kv.1).isNone)
              = (cf.filter (fun kv => (jLookup bf kv.1).isNone)).filter
                  (fun kv => (jLookup af kv.1).isNone) := by
            rw [List.filter_filter]
            refine List.filter_congr ?_
            intro kv _
            rw [lookup_merged_isNone af bf kv.1]
          rw [P1, P2, P3, List.append_assoc]

/-- C3 counterexample: deep-merge is not associative over all JSON-like
values — grouping `{x: 1}`, `5`, `{}` to the left yields `{}` while
grouping to the right yields `{x: 1}`, and the two results are not equal
under Python equality. -/
theorem deep_merge_assoc_counterexample :
    deep_merge (deep_merge (JValue.obj [("x", .num 1)]) (.num 5)) (.obj []) = .obj []
    ∧ deep_merge (JValue.obj [("x", .num 1)]) (deep_merge (.num 5) (.obj []))
        = .obj [("x", .num 1)]
    ∧ pyEq (.obj []) (.obj [("x", .num 1)]) = false :=
  ⟨rfl, rfl, rfl⟩

/-- C3 (amended): deep-merge is associative on kind-compatible values —
whenever no position pairs a mapping on one side with a non-null
non-mapping on another, the result of merging three values is independent
of the internal grouping. -/
theorem deep_merge_assoc_compat (a b c : JValue) (hab : compat a b = true)
    (hbc : compat b c = true) (hac : compat a c = true) :
    deep_merge (deep_merge a b) c = deep_merge a (deep_merge b c) :=
  deep_merge_assoc_aux (sizeOf a + sizeOf b + sizeOf c) a b c le_rfl hab hbc hac

/-- Witness for the amended C3 at concrete nested mappings. -/
theorem deep_merge_assoc_compat_witness :
    compat (JValue.obj [("m", .obj [("x", .num 1)])]) (.obj [("m", .obj [("y", .num 2)])]) = true
    ∧ compat (JValue.obj [("m", .obj [("y", .num 2)])]) (.obj [("m", .obj [("x", .num 3)])]) = true
    ∧ compat (JValue.obj [("m", .obj [("x", .num 1)])]) (.obj [("m", .obj [("x", .num 3)])]) = true
    ∧ deep_merge
        (deep_merge (JValue.obj [("m", .obj [("x", .num 1)])])
          (.obj [("m", .obj [("y", .num 2)])]))
        (.obj [("m", .obj [("x", .num 3)])])
      = deep_merge (JValue.obj [("m", .obj [("x", .num 1)])])
          (deep_merge (.obj [("m", .obj [("y", .num 2)])])
            (.obj [("m", .obj [("x", .num 3)])])) :=
  ⟨rfl, rfl, rfl,
   deep_merge_assoc_compat (.obj [("m", .obj [("x", .num 1)])])
     (.obj [("m", .obj [("y", .num 2)])]) (.obj [("m", .obj [("x", .num 3)])]) rfl rfl rfl⟩

end MnConfig
